import Mathlib

/-!
Verification of the `jsonutil` JSON string-truncation scanner.

The Go package exposes two operations, `TruncateJsonString` and
`TruncateJsonValueString`.  Both scan a raw byte sequence once, locate
string literals delimited by unescaped quote bytes, and rewrite literals
whose content reaches the `maxChars` budget.  The value-only variant
additionally classifies each completed literal as key or value by a
forward lookahead and leaves keys untouched.

Bytes are modelled as `Nat` (only equality with the quote, backslash and
colon bytes is ever tested).  The Go `int` parameter `maxChars` is
modelled on its nonnegative range as `Nat`; the unused
`context.Context` first parameter is modelled as a value of an arbitrary
type `Ctx`.  The single failure mode (`errors.New("error token is not
closed")`) is modelled by `Option`: `none` is the unclosed-string error.
-/

/-- Byte value of `"` (Go constant `stringToken`). -/
def stringToken : Nat := 34

/-- Byte value of `\` (Go constant `escapedStringToken`). -/
def escapedStringToken : Nat := 92

/-- Byte value of `:`, compared against by the key classifier. -/
def colonToken : Nat := 58

/-- ASCII bytes of a string literal (all marker text is 7-bit). -/
def ascii (s : String) : List Nat := s.data.map Char.toNat

/-- Fuel-driven decimal rendering helper (fuel bounds the digit count). -/
def natToDecAux : Nat → Nat → List Nat → List Nat
  | 0, _, acc => acc
  | fuel + 1, n, acc =>
    if n < 10 then (48 + n % 10) :: acc
    else natToDecAux fuel (n / 10) ((48 + n % 10) :: acc)

/-- ASCII decimal digits of `n`, as emitted by Go `fmt.Sprintf("%d", n)`
for a nonnegative argument. -/
def natToDec (n : Nat) : List Nat := natToDecAux (n + 1) n []

/-- `padding := 20; if maxChars < padding { padding = maxChars / 2 }`. -/
def paddingFor (maxChars : Nat) : Nat :=
  if maxChars < 20 then maxChars / 2 else 20

/-- `if maxChars <= 0 { maxChars = len(data) }` on the nonnegative range. -/
def effectiveMax (data : List Nat) (maxChars : Nat) : Nat :=
  if maxChars = 0 then data.length else maxChars

/-- `prevIdx := i; if i != 0 { prevIdx = i - 1 }`. -/
def prevIdxOf (i : Nat) : Nat := if i = 0 then i else i - 1

/-- The bytes written for a truncated literal:
`fmt.Sprintf("%s **escaped %d chars at [%d:%d]** %s",
str[0:padding], len(str)-maxChars, idxStart, idxEnd, str[len(str)-padding:])`. -/
def truncRender (str : List Nat) (maxChars padding idxStart idxEnd : Nat) : List Nat :=
  str.take padding ++ ascii (" **escaped ") ++ natToDec (str.length - maxChars) ++
    ascii (" chars at [") ++ natToDec idxStart ++ ascii (":") ++ natToDec idxEnd ++
    ascii ("]** ") ++ str.drop (str.length - padding)

/-- The scanner's per-call mutable state (`buf`, `str`, `begin`,
`idxStart`, `idxEnd` in the Go source). -/
structure ScanState where
  buf : List Nat
  str : List Nat
  begin : Bool
  idxStart : Nat
  idxEnd : Nat
deriving DecidableEq

/-- The closing-quote emission of `TruncateJsonString`:
`if len(str) >= maxChars` emit the truncated rendering, else the
accumulated content unchanged. -/
def closeAllStrings (maxChars padding : Nat) (str : List Nat) (idxStart idxEnd : Nat) :
    List Nat :=
  if str.length ≥ maxChars then truncRender str maxChars padding idxStart idxEnd else str

/-- The key classifier's inner loop, over the bytes after position
`idxEnd` (`isFoundStringTokenAgain` is the `found` argument):
a colon seen while no quote has been seen yet means "key". -/
def isKeyLoop : List Nat → Bool → Bool
  | [], _ => false
  | b :: rest, found =>
    if b = stringToken then isKeyLoop rest true
    else if found = false ∧ b = colonToken then true
    else isKeyLoop rest found

/-- The closing-quote emission of `TruncateJsonValueString`: run the key
classifier from `idxEnd + 1`; keys are written back unchanged, values go
through the truncation decision. -/
def closeValueOnly (data : List Nat) (maxChars padding : Nat) (str : List Nat)
    (idxStart idxEnd : Nat) : List Nat :=
  if isKeyLoop (data.drop (idxEnd + 1)) false = true then str
  else closeAllStrings maxChars padding str idxStart idxEnd

/-- The shared scanning loop of both Go functions (`for i := 0; i <
len(data); i++`), with the closing-quote emission abstracted as `close`.
The second list argument is the not-yet-processed suffix `data.drop i`,
recursed on structurally; `none` is the
`errors.New("error token is not closed")` return. -/
def scanLoop (data : List Nat) (close : List Nat → Nat → Nat → List Nat) :
    Nat → List Nat → ScanState → Option (List Nat)
  | _, [], s => some s.buf
  | i, datum :: rest, s =>
    if datum = stringToken ∧ s.idxStart = 0 then
      scanLoop data close (i + 1) rest { s with idxStart := i + 1, begin := true }
    else if s.begin = true then
      if datum = stringToken ∧ data.getD (prevIdxOf i) 0 ≠ escapedStringToken then
        scanLoop data close (i + 1) rest
          ⟨s.buf ++ stringToken :: close s.str s.idxStart s.idxEnd ++ [stringToken],
            [], false, 0, 0⟩
      else if i = data.length - 1 then none
      else scanLoop data close (i + 1) rest { s with str := s.str ++ [datum], idxEnd := i + 1 }
    else scanLoop data close (i + 1) rest { s with buf := s.buf ++ [datum] }

/-- `TruncateJsonString(ctx, data, maxChars)`: truncate every string
literal whose content reaches the budget, keys included. -/
def TruncateJsonString {Ctx : Type} (ctx : Ctx) (data : List Nat) (maxChars : Nat) :
    Option (List Nat) :=
  scanLoop data (closeAllStrings (effectiveMax data maxChars) (paddingFor maxChars))
    0 data ⟨[], [], false, 0, 0⟩

/-- `TruncateJsonValueString(ctx, data, maxChars)`: like
`TruncateJsonString` but literals classified as keys are left untouched. -/
def TruncateJsonValueString {Ctx : Type} (ctx : Ctx) (data : List Nat) (maxChars : Nat) :
    Option (List Nat) :=
  scanLoop data (closeValueOnly data (effectiveMax data maxChars) (paddingFor maxChars))
    0 data ⟨[], [], false, 0, 0⟩

/-!
## Well-formed inputs as segment lists

An input "with properly paired and escaped string quotes" is modelled as
a list of segments: a non-quote byte outside any literal, or a string
literal given by its content.  `contentOK` states the scanner-level
conditions under which the rendered literal is scanned back as exactly
that literal: every quote byte inside the content is immediately
preceded by a backslash byte (the scanner's own escape rule), and the
byte before the closing quote is not a backslash.
-/

/-- A segment of a well-formed input: a byte outside any string literal,
or a string literal with the given content bytes. -/
inductive JSeg where
  | plain : Nat → JSeg
  | lit : List Nat → JSeg
deriving DecidableEq

/-- The raw bytes of one segment. -/
def renderSeg : JSeg → List Nat
  | JSeg.plain b => [b]
  | JSeg.lit c => stringToken :: c ++ [stringToken]

/-- The raw bytes of a segment list. -/
def renderSegs (ss : List JSeg) : List Nat := (ss.map renderSeg).flatten

/-- `noCloseFrom p c`: scanning `c` with previous byte `p`, no byte of
`c` is an unescaped (closing) quote. -/
def noCloseFrom : Nat → List Nat → Bool
  | _, [] => true
  | p, b :: rest => (!(b == stringToken) || (p == escapedStringToken)) && noCloseFrom b rest

/-- The byte preceding the position right after `c`, when the byte
preceding `c` is `p`. -/
def lastFrom : Nat → List Nat → Nat
  | p, [] => p
  | _, b :: rest => lastFrom b rest

/-- Content bytes that the scanner reads back as one literal: no
unescaped quote inside, and the closing quote is not escaped. -/
def contentOK (c : List Nat) : Bool :=
  noCloseFrom stringToken c && !(lastFrom stringToken c == escapedStringToken)

/-- Well-formedness of one segment. -/
def segOK : JSeg → Bool
  | JSeg.plain b => !(b == stringToken)
  | JSeg.lit c => contentOK c

/-- Well-formedness of a segment list ("properly paired and escaped
string quotes"). -/
def segsOK (ss : List JSeg) : Bool := ss.all segOK

/-- The bytes a scan emits for the literal whose opening quote sits at
input offset `i`, for a given closing-quote emission `close`: the state
at closing time has `idxStart = i + 1` and `idxEnd = i + 1 + len`
(`idxEnd` keeps its reset value `0` when the content is empty). -/
def litOutG (close : List Nat → Nat → Nat → List Nat) (i : Nat) (c : List Nat) : List Nat :=
  stringToken :: close c (i + 1) (if c.length = 0 then 0 else i + 1 + c.length) ++ [stringToken]

/-- The bytes a scan emits for a segment list starting at input offset
`i`. -/
def outFromG (close : List Nat → Nat → Nat → List Nat) : Nat → List JSeg → List Nat
  | _, [] => []
  | i, JSeg.plain b :: t => b :: outFromG close (i + 1) t
  | i, JSeg.lit c :: t => litOutG close i c ++ outFromG close (i + c.length + 2) t

/-!
## Instrumented scan

`scanLoopTr` is the same algorithm as `scanLoop` (with the two
closing-quote emissions inlined, selected by `keyAware`), additionally
recording, for every completed literal, the closing-quote index together
with the `idxStart`, `idxEnd`, `str` and `isKey` values the code uses at
that moment.  It makes the internal key/value classification and the
truncation-branch condition of both operations inspectable.
-/

/-- What the scanner knows when a literal's closing quote is processed:
the index `closeIdx` of the closing quote, the `idxStart`/`idxEnd`/`str`
state fields, and the computed key classification (always `false` for
the all-strings mode). -/
structure LitEntry where
  closeIdx : Nat
  idxStart : Nat
  idxEnd : Nat
  content : List Nat
  isKey : Bool
deriving DecidableEq

/-- `scanLoop` with the closing-quote emission of
`TruncateJsonString` (`keyAware = false`) or `TruncateJsonValueString`
(`keyAware = true`) inlined, recording a `LitEntry` per literal.  On the
unclosed-string error the entries recorded so far are still returned. -/
def scanLoopTr (data : List Nat) (maxChars padding : Nat) (keyAware : Bool) :
    Nat → List Nat → ScanState → List LitEntry → Option (List Nat) × List LitEntry
  | _, [], s, es => (some s.buf, es)
  | i, datum :: rest, s, es =>
    if datum = stringToken ∧ s.idxStart = 0 then
      scanLoopTr data maxChars padding keyAware (i + 1) rest
        { s with idxStart := i + 1, begin := true } es
    else if s.begin = true then
      if datum = stringToken ∧ data.getD (prevIdxOf i) 0 ≠ escapedStringToken then
        scanLoopTr data maxChars padding keyAware (i + 1) rest
          ⟨s.buf ++ stringToken ::
              (if keyAware && isKeyLoop (data.drop (s.idxEnd + 1)) false then s.str
                else closeAllStrings maxChars padding s.str s.idxStart s.idxEnd) ++
              [stringToken],
            [], false, 0, 0⟩
          (es ++ [⟨i, s.idxStart, s.idxEnd, s.str,
            keyAware && isKeyLoop (data.drop (s.idxEnd + 1)) false⟩])
      else if i = data.length - 1 then (none, es)
      else scanLoopTr data maxChars padding keyAware (i + 1) rest
        { s with str := s.str ++ [datum], idxEnd := i + 1 } es
    else scanLoopTr data maxChars padding keyAware (i + 1) rest
      { s with buf := s.buf ++ [datum] } es

/-- Run the instrumented scan the way the two operations run `scanLoop`. -/
def scanTrace (keyAware : Bool) (data : List Nat) (maxChars : Nat) :
    Option (List Nat) × List LitEntry :=
  scanLoopTr data (effectiveMax data maxChars) (paddingFor maxChars) keyAware 0 data
    ⟨[], [], false, 0, 0⟩ []

/-- Facts holding of every recorded literal: its content is strictly
shorter than the whole input, `idxEnd` is the closing-quote index for
nonempty content and `0` for empty content, and `isKey` is exactly what
the classifier computes from position `idxEnd + 1`. -/
def entryGood (data : List Nat) (keyAware : Bool) (e : LitEntry) : Prop :=
  e.content.length < data.length ∧
  (e.content = [] → e.idxEnd = 0) ∧
  (e.content ≠ [] → e.idxEnd = e.closeIdx) ∧
  e.isKey = (keyAware && isKeyLoop (data.drop (e.idxEnd + 1)) false)

@[simp] lemma renderSegs_nil : renderSegs [] = [] := rfl

@[simp] lemma renderSegs_cons (sg : JSeg) (t : List JSeg) :
    renderSegs (sg :: t) = renderSeg sg ++ renderSegs t := by
  simp [renderSegs]

/-! ## List indexing helpers -/

lemma getD_of_drop : ∀ (i : Nat) (data l : List Nat) (x : Nat),
    data.drop i = x :: l → data.getD i 0 = x
  | 0, data, l, x, h => by cases data <;> simp_all
  | i + 1, [], _, _, h => by simp at h
  | i + 1, d :: ds, l, x, h => by
    simpa using getD_of_drop i ds l x (by simpa using h)

lemma drop_succ_of_drop {i : Nat} {data l : List Nat} {x : Nat}
    (h : data.drop i = x :: l) : data.drop (i + 1) = l := by
  have := congrArg List.tail h
  simpa [List.tail_drop] using this

lemma length_of_drop {i : Nat} {data l : List Nat} {x : Nat}
    (h : data.drop i = x :: l) : data.length = i + 1 + l.length := by
  have hlt : i < data.length := by
    by_contra hle
    rw [List.drop_eq_nil_of_le (by omega)] at h
    exact List.noConfusion h
  have := congrArg List.length h
  rw [List.length_drop] at this
  simp at this
  omega

lemma drop_add_of_drop {i : Nat} {data l r : List Nat}
    (h : data.drop i = l ++ r) : data.drop (i + l.length) = r := by
  have h2 : (data.drop i).drop l.length = data.drop (i + l.length) :=
    List.drop_drop l.length i data
  rw [h, List.drop_left] at h2
  exact h2.symm

lemma getD_lastFrom : ∀ (c : List Nat) (p : Nat) (data : List Nat) (i : Nat) (r : List Nat),
    data.drop i = c ++ r → 1 ≤ i → data.getD (i - 1) 0 = p →
    data.getD (i + c.length - 1) 0 = lastFrom p c
  | [], p, data, i, r, _, _, hp => by simpa [lastFrom] using hp
  | x :: c', p, data, i, r, hdrop, hi, hp => by
    have hx : data.getD i 0 = x := getD_of_drop i data (c' ++ r) x (by simpa using hdrop)
    have hdrop' : data.drop (i + 1) = c' ++ r := drop_succ_of_drop (by simpa using hdrop)
    have := getD_lastFrom c' x data (i + 1) r hdrop' (by omega) (by simpa using hx)
    have harith : i + (x :: c').length - 1 = i + 1 + c'.length - 1 := by
      simp only [List.length_cons]
      omega
    rw [harith, this, lastFrom]

/-! ## Single-step unfoldings of the scan loop -/

lemma scanLoop_open (data : List Nat) (close : List Nat → Nat → Nat → List Nat)
    (i : Nat) (rest : List Nat) (s : ScanState) (h : s.idxStart = 0) :
    scanLoop data close i (stringToken :: rest) s =
      scanLoop data close (i + 1) rest { s with idxStart := i + 1, begin := true } := by
  simp [scanLoop, h]

lemma scanLoop_copy (data : List Nat) (close : List Nat → Nat → Nat → List Nat)
    (i : Nat) (datum : Nat) (rest : List Nat) (s : ScanState)
    (h1 : ¬(datum = stringToken ∧ s.idxStart = 0)) (h2 : s.begin = false) :
    scanLoop data close i (datum :: rest) s =
      scanLoop data close (i + 1) rest { s with buf := s.buf ++ [datum] } := by
  simp only [scanLoop, if_neg h1, h2]
  simp

lemma scanLoop_close (data : List Nat) (close : List Nat → Nat → Nat → List Nat)
    (i : Nat) (rest : List Nat) (s : ScanState)
    (h1 : s.idxStart ≠ 0) (hb : s.begin = true)
    (hprev : data.getD (prevIdxOf i) 0 ≠ escapedStringToken) :
    scanLoop data close i (stringToken :: rest) s =
      scanLoop data close (i + 1) rest
        ⟨s.buf ++ stringToken :: close s.str s.idxStart s.idxEnd ++ [stringToken],
          [], false, 0, 0⟩ := by
  simp only [scanLoop, hb, eq_self_iff_true, if_true, true_and]
  rw [if_neg h1, if_pos hprev]

lemma scanLoop_append (data : List Nat) (close : List Nat → Nat → Nat → List Nat)
    (i : Nat) (datum : Nat) (rest : List Nat) (s : ScanState)
    (h1 : ¬(datum = stringToken ∧ s.idxStart = 0)) (hb : s.begin = true)
    (hcl : ¬(datum = stringToken ∧ data.getD (prevIdxOf i) 0 ≠ escapedStringToken))
    (hlast : i ≠ data.length - 1) :
    scanLoop data close i (datum :: rest) s =
      scanLoop data close (i + 1) rest { s with str := s.str ++ [datum], idxEnd := i + 1 } := by
  simp only [scanLoop, hb, eq_self_iff_true, if_true]
  rw [if_neg h1, if_neg hcl, if_neg hlast]

lemma scanLoop_err (data : List Nat) (close : List Nat → Nat → Nat → List Nat)
    (i : Nat) (datum : Nat) (rest : List Nat) (s : ScanState)
    (h1 : ¬(datum = stringToken ∧ s.idxStart = 0)) (hb : s.begin = true)
    (hcl : ¬(datum = stringToken ∧ data.getD (prevIdxOf i) 0 ≠ escapedStringToken))
    (hlast : i = data.length - 1) :
    scanLoop data close i (datum :: rest) s = none := by
  simp only [scanLoop, hb, eq_self_iff_true, if_true]
  rw [if_neg h1, if_neg hcl, if_pos hlast]

/-! ## The scan across one literal's content, one whole literal, and a
segment list -/

lemma scanLoop_content (data : List Nat) (close : List Nat → Nat → Nat → List Nat)
    (c : List Nat) :
    ∀ (i : Nat) (rest0 B str0 : List Nat) (idxS idxE0 : Nat),
      data.drop i = c ++ rest0 → rest0 ≠ [] → 1 ≤ i →
      noCloseFrom (data.getD (i - 1) 0) c = true → idxS ≠ 0 →
      scanLoop data close i (c ++ rest0) ⟨B, str0, true, idxS, idxE0⟩ =
        scanLoop data close (i + c.length) rest0
          ⟨B, str0 ++ c, true, idxS, if c.length = 0 then idxE0 else i + c.length⟩ := by
  induction c with
  | nil =>
    intro i rest0 B str0 idxS idxE0 _ _ _ _ _
    simp
  | cons x c' ih =>
    intro i rest0 B str0 idxS idxE0 hdrop hne hi hnc hS
    have hdropx : data.drop i = x :: (c' ++ rest0) := by simpa using hdrop
    have hx : data.getD i 0 = x := getD_of_drop i data (c' ++ rest0) x hdropx
    have hdrop' : data.drop (i + 1) = c' ++ rest0 := drop_succ_of_drop hdropx
    have hlen : data.length = i + 1 + (c' ++ rest0).length := length_of_drop hdropx
    have hr0 : 1 ≤ rest0.length := List.length_pos.mpr hne
    simp only [noCloseFrom, Bool.and_eq_true, Bool.or_eq_true, Bool.not_eq_true',
      beq_eq_false_iff_ne, ne_eq, beq_iff_eq] at hnc
    have hstep := scanLoop_append data close i x (c' ++ rest0) ⟨B, str0, true, idxS, idxE0⟩
      (fun hh => hS hh.2)
      rfl
      (by
        rintro ⟨hx34, hprev⟩
        have hp : data.getD (i - 1) 0 = escapedStringToken := by
          rcases hnc.1 with hne34 | hesc
          · exact absurd hx34 hne34
          · exact hesc
        have hpi : prevIdxOf i = i - 1 := by
          unfold prevIdxOf
          rw [if_neg (by omega)]
        rw [hpi] at hprev
        exact hprev hp)
      (by
        simp only [List.length_append] at hlen
        omega)
    have hrec := ih (i + 1) rest0 B (str0 ++ [x]) idxS (i + 1) hdrop' hne (by omega)
      (by rw [Nat.add_sub_cancel, hx]; exact hnc.2) hS
    have e1 : i + (x :: c').length = i + 1 + c'.length := by
      simp only [List.length_cons]
      omega
    have e2 : str0 ++ x :: c' = (str0 ++ [x]) ++ c' := by simp
    have e3 : (if (x :: c').length = 0 then idxE0 else i + (x :: c').length) =
        (if c'.length = 0 then i + 1 else i + 1 + c'.length) := by
      by_cases h0 : c'.length = 0
      all_goals simp [h0]
      all_goals omega
    rw [show (x :: c') ++ rest0 = x :: (c' ++ rest0) from rfl, e3, e1, e2]
    exact hstep.trans hrec

lemma scanLoop_lit (data : List Nat) (close : List Nat → Nat → Nat → List Nat)
    (c : List Nat) (i : Nat) (rest B : List Nat)
    (hdrop : data.drop i = stringToken :: (c ++ stringToken :: rest))
    (hok : contentOK c = true) :
    scanLoop data close i (stringToken :: (c ++ stringToken :: rest)) ⟨B, [], false, 0, 0⟩ =
      scanLoop data close (i + c.length + 2) rest
        ⟨B ++ litOutG close i c, [], false, 0, 0⟩ := by
  simp only [contentOK, Bool.and_eq_true, Bool.not_eq_true', beq_eq_false_iff_ne, ne_eq] at hok
  have h34 : data.getD i 0 = stringToken :=
    getD_of_drop i data (c ++ stringToken :: rest) stringToken hdrop
  have hdrop1 : data.drop (i + 1) = c ++ stringToken :: rest := drop_succ_of_drop hdrop
  have hstep1 := scanLoop_open data close i (c ++ stringToken :: rest) ⟨B, [], false, 0, 0⟩ rfl
  have hstep2 := scanLoop_content data close c (i + 1) (stringToken :: rest) B [] (i + 1) 0
    hdrop1 (by simp) (by omega) (by rw [Nat.add_sub_cancel, h34]; exact hok.1)
    (Nat.succ_ne_zero i)
  have hlast : data.getD (i + 1 + c.length - 1) 0 = lastFrom stringToken c :=
    getD_lastFrom c stringToken data (i + 1) (stringToken :: rest) hdrop1 (by omega)
      (by rw [Nat.add_sub_cancel]; exact h34)
  have hprev : data.getD (prevIdxOf (i + 1 + c.length)) 0 ≠ escapedStringToken := by
    have hpi : prevIdxOf (i + 1 + c.length) = i + 1 + c.length - 1 := by
      unfold prevIdxOf
      rw [if_neg (by omega)]
    rw [hpi, hlast]
    exact hok.2
  have hstep3 := scanLoop_close data close (i + 1 + c.length) rest
    ⟨B, [] ++ c, true, i + 1, if c.length = 0 then 0 else i + 1 + c.length⟩
    (Nat.succ_ne_zero i) rfl hprev
  refine (hstep1.trans (hstep2.trans hstep3)).trans ?_
  have e1 : i + 1 + c.length + 1 = i + c.length + 2 := by omega
  rw [e1]
  have e2 : B ++ stringToken ::
      close ([] ++ c) (i + 1) (if c.length = 0 then 0 else i + 1 + c.length) ++ [stringToken]
      = B ++ litOutG close i c := by
    simp [litOutG]
  rw [e2]

lemma scanLoop_segs (data : List Nat) (close : List Nat → Nat → Nat → List Nat)
    (ss : List JSeg) :
    ∀ (i : Nat) (B rest2 : List Nat), segsOK ss = true →
      data.drop i = renderSegs ss ++ rest2 →
      scanLoop data close i (renderSegs ss ++ rest2) ⟨B, [], false, 0, 0⟩ =
        scanLoop data close (i + (renderSegs ss).length) rest2
          ⟨B ++ outFromG close i ss, [], false, 0, 0⟩ := by
  induction ss with
  | nil =>
    intro i B rest2 _ _
    simp [outFromG]
  | cons sg t ih =>
    intro i B rest2 hok hdrop
    simp only [segsOK, List.all_cons, Bool.and_eq_true] at hok
    have hokt : segsOK t = true := hok.2
    cases sg with
    | plain b =>
      have hb : b ≠ stringToken := by
        have := hok.1
        simpa [segOK] using this
      have hshape : renderSegs (JSeg.plain b :: t) ++ rest2 = b :: (renderSegs t ++ rest2) := by
        simp [renderSeg]
      have hdrop' : data.drop (i + 1) = renderSegs t ++ rest2 :=
        drop_succ_of_drop (by rw [hdrop, hshape])
      have hstep := scanLoop_copy data close i b (renderSegs t ++ rest2) ⟨B, [], false, 0, 0⟩
        (fun hh => hb hh.1) rfl
      have hrec := ih (i + 1) (B ++ [b]) rest2 hokt hdrop'
      have e1 : i + (renderSegs (JSeg.plain b :: t)).length = i + 1 + (renderSegs t).length := by
        simp [renderSeg]
        omega
      have e2 : B ++ outFromG close i (JSeg.plain b :: t) =
          (B ++ [b]) ++ outFromG close (i + 1) t := by
        simp [outFromG]
      rw [hshape, e1, e2]
      exact hstep.trans hrec
    | lit c =>
      have hc : contentOK c = true := by
        have := hok.1
        simpa [segOK] using this
      have hshape : renderSegs (JSeg.lit c :: t) ++ rest2 =
          stringToken :: (c ++ stringToken :: (renderSegs t ++ rest2)) := by
        simp [renderSeg]
      have hdropx : data.drop i = stringToken :: (c ++ stringToken :: (renderSegs t ++ rest2)) := by
        rw [hdrop, hshape]
      have hstep := scanLoop_lit data close c i (renderSegs t ++ rest2) B hdropx hc
      have hdrop2 : data.drop (i + c.length + 2) = renderSegs t ++ rest2 := by
        have h2 := drop_add_of_drop (l := stringToken :: (c ++ [stringToken]))
          (r := renderSegs t ++ rest2)
          (by rw [hdropx]; simp)
        have e : i + (stringToken :: (c ++ [stringToken])).length = i + c.length + 2 := by
          simp
          omega
        rw [e] at h2
        exact h2
      have hrec := ih (i + c.length + 2) (B ++ litOutG close i c) rest2 hokt hdrop2
      have e1 : i + (renderSegs (JSeg.lit c :: t)).length =
          i + c.length + 2 + (renderSegs t).length := by
        simp [renderSeg]
        omega
      have e2 : B ++ outFromG close i (JSeg.lit c :: t) =
          (B ++ litOutG close i c) ++ outFromG close (i + c.length + 2) t := by
        simp [outFromG]
      rw [hshape, e1, e2]
      exact hstep.trans hrec

/-- `TruncateJsonString` on a well-formed input: the output is the
segment-wise rewriting, all literals going through the truncation
decision. -/
lemma truncAll_segs {Ctx : Type} (ctx : Ctx) (ss : List JSeg) (m : Nat)
    (hok : segsOK ss = true) :
    TruncateJsonString ctx (renderSegs ss) m =
      some (outFromG
        (closeAllStrings (effectiveMax (renderSegs ss) m) (paddingFor m)) 0 ss) := by
  unfold TruncateJsonString
  have h := scanLoop_segs (renderSegs ss)
    (closeAllStrings (effectiveMax (renderSegs ss) m) (paddingFor m)) ss 0 [] [] hok
    (by simp)
  simp only [List.append_nil] at h
  rw [h]
  simp [scanLoop]

/-- `TruncateJsonValueString` on a well-formed input: the output is the
segment-wise rewriting with the key classifier consulted per literal. -/
lemma truncVal_segs {Ctx : Type} (ctx : Ctx) (ss : List JSeg) (m : Nat)
    (hok : segsOK ss = true) :
    TruncateJsonValueString ctx (renderSegs ss) m =
      some (outFromG
        (closeValueOnly (renderSegs ss) (effectiveMax (renderSegs ss) m) (paddingFor m))
        0 ss) := by
  unfold TruncateJsonValueString
  have h := scanLoop_segs (renderSegs ss)
    (closeValueOnly (renderSegs ss) (effectiveMax (renderSegs ss) m) (paddingFor m)) ss 0 [] []
    hok (by simp)
  simp only [List.append_nil] at h
  rw [h]
  simp [scanLoop]

lemma noCloseFrom_concat : ∀ (c' : List Nat) (p x : Nat),
    noCloseFrom p (c' ++ [x]) = true →
    noCloseFrom p c' = true ∧ (x = stringToken → lastFrom p c' = escapedStringToken)
  | [], p, x, h => by
    simp only [List.nil_append, noCloseFrom, Bool.and_eq_true, Bool.or_eq_true,
      Bool.not_eq_true', beq_eq_false_iff_ne, ne_eq, beq_iff_eq] at h
    refine ⟨rfl, fun hx => ?_⟩
    rcases h.1 with hne | hesc
    · exact absurd hx hne
    · exact hesc
  | y :: c'', p, x, h => by
    simp only [List.cons_append, noCloseFrom, Bool.and_eq_true] at h
    have ih := noCloseFrom_concat c'' y x h.2
    exact ⟨by simp [noCloseFrom, h.1, ih.1], fun hx => by simpa [lastFrom] using ih.2 hx⟩

/-- A scan of a well-formed prefix followed by an opened literal that
never closes and has at least one byte after its opening quote returns
the unclosed-string error. -/
lemma scanLoop_unclosed (data : List Nat) (close : List Nat → Nat → Nat → List Nat)
    (ss : List JSeg) (c : List Nat)
    (hdata : data = renderSegs ss ++ stringToken :: c)
    (hok : segsOK ss = true) (hnc : noCloseFrom stringToken c = true) (hcne : c ≠ []) :
    scanLoop data close 0 data ⟨[], [], false, 0, 0⟩ = none := by
  rcases (List.eq_nil_or_concat c) with rfl | ⟨c', x, rfl⟩
  · exact absurd rfl hcne
  simp only [List.concat_eq_append] at hdata hnc
  have hseg := scanLoop_segs data close ss 0 [] (stringToken :: (c' ++ [x])) hok
    (by simp [hdata])
  have hdrop0 : data.drop (renderSegs ss).length = stringToken :: (c' ++ [x]) := by
    rw [hdata, List.drop_left]
  have h34 : data.getD (renderSegs ss).length 0 = stringToken :=
    getD_of_drop _ data _ _ hdrop0
  have hdrop1 : data.drop ((renderSegs ss).length + 1) = c' ++ [x] :=
    drop_succ_of_drop hdrop0
  have hlen : data.length = (renderSegs ss).length + 1 + (c' ++ [x]).length :=
    length_of_drop hdrop0
  have hcc := noCloseFrom_concat c' stringToken x hnc
  have hopen := scanLoop_open data close (renderSegs ss).length (c' ++ [x])
    ⟨[] ++ outFromG close 0 ss, [], false, 0, 0⟩ rfl
  have hcontent := scanLoop_content data close c' ((renderSegs ss).length + 1) [x]
    ([] ++ outFromG close 0 ss) [] ((renderSegs ss).length + 1) 0
    hdrop1 (by simp) (by omega)
    (by rw [Nat.add_sub_cancel, h34]; exact hcc.1)
    (Nat.succ_ne_zero _)
  have hlastc : data.getD ((renderSegs ss).length + 1 + c'.length - 1) 0 =
      lastFrom stringToken c' :=
    getD_lastFrom c' stringToken data ((renderSegs ss).length + 1) [x] hdrop1 (by omega)
      (by rw [Nat.add_sub_cancel]; exact h34)
  have herr := scanLoop_err data close ((renderSegs ss).length + 1 + c'.length) x []
    ⟨[] ++ outFromG close 0 ss, [] ++ c', true, (renderSegs ss).length + 1,
      if c'.length = 0 then 0 else (renderSegs ss).length + 1 + c'.length⟩
    (fun hh => Nat.succ_ne_zero _ hh.2) rfl
    (by
      rintro ⟨hx34, hprev⟩
      have hpi : prevIdxOf ((renderSegs ss).length + 1 + c'.length) =
          (renderSegs ss).length + 1 + c'.length - 1 := by
        unfold prevIdxOf
        rw [if_neg (by omega)]
      rw [hpi, hlastc] at hprev
      exact hprev (hcc.2 hx34))
    (by
      simp only [List.length_append, List.length_cons, List.length_nil] at hlen
      omega)
  calc scanLoop data close 0 data ⟨[], [], false, 0, 0⟩
      = scanLoop data close 0 (renderSegs ss ++ stringToken :: (c' ++ [x]))
          ⟨[], [], false, 0, 0⟩ := by rw [hdata]
    _ = scanLoop data close (0 + (renderSegs ss).length) (stringToken :: (c' ++ [x]))
          ⟨[] ++ outFromG close 0 ss, [], false, 0, 0⟩ := hseg
    _ = none := by
        rw [Nat.zero_add]
        exact hopen.trans (hcontent.trans herr)

/-- A scan of a well-formed prefix followed by a single trailing opening
quote succeeds and drops that quote. -/
lemma scanLoop_trailing (data : List Nat) (close : List Nat → Nat → Nat → List Nat)
    (ss : List JSeg) (hdata : data = renderSegs ss ++ [stringToken])
    (hok : segsOK ss = true) :
    scanLoop data close 0 data ⟨[], [], false, 0, 0⟩ = some (outFromG close 0 ss) := by
  have hseg := scanLoop_segs data close ss 0 [] [stringToken] hok (by simp [hdata])
  have hopen := scanLoop_open data close (renderSegs ss).length ([] : List Nat)
    ⟨[] ++ outFromG close 0 ss, [], false, 0, 0⟩ rfl
  calc scanLoop data close 0 data ⟨[], [], false, 0, 0⟩
      = scanLoop data close 0 (renderSegs ss ++ [stringToken]) ⟨[], [], false, 0, 0⟩ := by
        rw [hdata]
    _ = scanLoop data close (0 + (renderSegs ss).length) [stringToken]
          ⟨[] ++ outFromG close 0 ss, [], false, 0, 0⟩ := hseg
    _ = some (outFromG close 0 ss) := by
        rw [Nat.zero_add]
        rw [hopen]
        simp [scanLoop]

lemma scanLoopTr_inv (data : List Nat) (M p : Nat) (keyAware : Bool) :
    ∀ (rest : List Nat) (i : Nat) (s : ScanState) (es : List LitEntry),
      data.length = i + rest.length →
      s.str.length ≤ i →
      (s.begin = true → s.idxStart ≠ 0) →
      (s.idxStart = 0 → s.str = []) →
      (s.begin = false → s.str = []) →
      (s.str = [] → s.idxEnd = 0) →
      (s.str ≠ [] → s.idxEnd = i) →
      (∀ e ∈ es, entryGood data keyAware e) →
      ∀ e ∈ (scanLoopTr data M p keyAware i rest s es).2, entryGood data keyAware e := by
  intro rest
  induction rest with
  | nil =>
    intro i s es _ _ _ _ _ _ _ hes
    simpa [scanLoopTr] using hes
  | cons datum rest' ih =>
    intro i s es hlen hstrlen hbS hS0 hbF hE0 hEi hes
    simp only [scanLoopTr]
    by_cases h1 : datum = stringToken ∧ s.idxStart = 0
    · rw [if_pos h1]
      have hstr : s.str = [] := hS0 h1.2
      refine ih (i + 1) _ es ?_ ?_ ?_ ?_ ?_ ?_ ?_ hes
      · simp only [List.length_cons] at hlen
        omega
      · simp [hstr]
      · intro _
        exact Nat.succ_ne_zero i
      · intro hz
        exact absurd hz (Nat.succ_ne_zero i)
      · intro _
        exact hstr
      · intro _
        exact hE0 hstr
      · intro hne
        exact absurd hstr hne
    · rw [if_neg h1]
      by_cases hb : s.begin = true
      · rw [if_pos hb]
        by_cases hcl : datum = stringToken ∧ data.getD (prevIdxOf i) 0 ≠ escapedStringToken
        · rw [if_pos hcl]
          refine ih (i + 1) _ _ ?_ ?_ ?_ ?_ ?_ ?_ ?_ ?_
          · simp only [List.length_cons] at hlen
            omega
          · simp
          · simp
          · intro _
            rfl
          · intro _
            rfl
          · intro _
            rfl
          · intro hne
            exact absurd rfl hne
          · intro e he
            rcases List.mem_append.mp he with hold | hnew
            · exact hes e hold
            · have : e = ⟨i, s.idxStart, s.idxEnd, s.str,
                  keyAware && isKeyLoop (data.drop (s.idxEnd + 1)) false⟩ := by
                simpa using hnew
              subst this
              refine ⟨?_, hE0, hEi, rfl⟩
              show s.str.length < data.length
              simp only [List.length_cons] at hlen
              omega
        · rw [if_neg hcl]
          by_cases hlast : i = data.length - 1
          · rw [if_pos hlast]
            simpa using hes
          · rw [if_neg hlast]
            refine ih (i + 1) _ es ?_ ?_ ?_ ?_ ?_ ?_ ?_ hes
            · simp only [List.length_cons] at hlen
              omega
            · simp only [List.length_append, List.length_cons, List.length_nil]
              omega
            · intro _
              exact hbS hb
            · intro hz
              exact absurd hz (hbS hb)
            · intro hbf
              rw [hb] at hbf
              exact absurd hbf (by simp)
            · intro hz
              exact absurd hz (by simp)
            · intro _
              rfl
      · rw [if_neg hb]
        have hbf : s.begin = false := by
          revert hb
          cases s.begin <;> simp
        have hstr : s.str = [] := hbF hbf
        refine ih (i + 1) _ es ?_ ?_ ?_ ?_ ?_ ?_ ?_ hes
        · simp only [List.length_cons] at hlen
          omega
        · simp [hstr]
        · intro hbt
          rw [hbf] at hbt
          exact absurd hbt (by simp)
        · intro _
          exact hstr
        · intro _
          exact hstr
        · intro _
          exact hE0 hstr
        · intro hne
          exact absurd hstr hne

/-- Every entry that any run records is `entryGood`. -/
lemma scanTrace_good (keyAware : Bool) (data : List Nat) (maxChars : Nat) :
    ∀ e ∈ (scanTrace keyAware data maxChars).2, entryGood data keyAware e := by
  apply scanLoopTr_inv data (effectiveMax data maxChars) (paddingFor maxChars) keyAware data 0
    ⟨[], [], false, 0, 0⟩ []
  · omega
  · simp
  · simp
  · intro _
    rfl
  · intro _
    rfl
  · intro _
    rfl
  · intro h
    exact absurd rfl h
  · intro e he
    exact absurd he (List.not_mem_nil e)

/-- If every literal's content is strictly under the budget, the
all-strings rewriting is the identity. -/
lemma outFromG_all_id (M p : Nat) (ss : List JSeg) :
    ∀ i, (∀ c, JSeg.lit c ∈ ss → c.length < M) →
      outFromG (closeAllStrings M p) i ss = renderSegs ss := by
  induction ss with
  | nil =>
    intro i _
    simp [outFromG]
  | cons sg t ih =>
    intro i hlt
    cases sg with
    | plain b =>
      simp only [outFromG, renderSegs_cons, renderSeg]
      rw [ih (i + 1) (fun c hc => hlt c (List.mem_cons_of_mem _ hc))]
      rfl
    | lit c =>
      have hc : c.length < M := hlt c (List.mem_cons_self _ _)
      have hclose : litOutG (closeAllStrings M p) i c = stringToken :: c ++ [stringToken] := by
        unfold litOutG closeAllStrings
        rw [if_neg (by omega)]
      simp only [outFromG, renderSegs_cons, renderSeg]
      rw [hclose, ih (i + c.length + 2) (fun c' hc' => hlt c' (List.mem_cons_of_mem _ hc'))]

/-- If every literal's content is strictly under the budget, the
value-only rewriting is also the identity (keys and values alike are
emitted unchanged). -/
lemma outFromG_val_id (data : List Nat) (M p : Nat) (ss : List JSeg) :
    ∀ i, (∀ c, JSeg.lit c ∈ ss → c.length < M) →
      outFromG (closeValueOnly data M p) i ss = renderSegs ss := by
  induction ss with
  | nil =>
    intro i _
    simp [outFromG]
  | cons sg t ih =>
    intro i hlt
    cases sg with
    | plain b =>
      simp only [outFromG, renderSegs_cons, renderSeg]
      rw [ih (i + 1) (fun c hc => hlt c (List.mem_cons_of_mem _ hc))]
      rfl
    | lit c =>
      have hc : c.length < M := hlt c (List.mem_cons_self _ _)
      have hclose : litOutG (closeValueOnly data M p) i c = stringToken :: c ++ [stringToken] := by
        unfold litOutG closeValueOnly
        by_cases hk : isKeyLoop
            (data.drop ((if c.length = 0 then 0 else i + 1 + c.length) + 1)) false = true
        · rw [if_pos hk]
        · rw [if_neg hk]
          unfold closeAllStrings
          rw [if_neg (by omega)]
      simp only [outFromG, renderSegs_cons, renderSeg]
      rw [hclose, ih (i + c.length + 2) (fun c' hc' => hlt c' (List.mem_cons_of_mem _ hc'))]

/-- A literal occurring in a segment list contributes its content plus
two quotes to the rendered length. -/
lemma lit_length_lt_render (ss : List JSeg) (c : List Nat) (h : JSeg.lit c ∈ ss) :
    c.length + 2 ≤ (renderSegs ss).length := by
  induction ss with
  | nil => exact absurd h (List.not_mem_nil _)
  | cons sg t ih =>
    rcases List.mem_cons.mp h with heq | hm
    · subst heq
      simp only [renderSegs_cons, List.length_append, renderSeg, List.length_cons]
      simp
    · have := ih hm
      simp only [renderSegs_cons, List.length_append]
      omega

/-!
## The claims
-/

/-- C1: for every well-formed input and every `maxChars = m > 0`,
`TruncateJsonString` rewrites the input segment-wise, and a literal of
content `c` with `m ≤ len c` whose opening quote sits at input offset
`i` is emitted between its two quotes as `c[0:padding]`, the exact text
`" **escaped " ++ (len c - m) ++ " chars at [" ++ (i+1) ++ ":" ++
(i+1+len c) ++ "]** "`, then `c[len c - padding:]`, where `i + 1` is the
byte offset right after the opening quote and `i + 1 + len c` the byte
offset right after the last content byte, and `padding` is `20` when
`20 ≤ m` and `m / 2` otherwise. -/
theorem claimC1 (Ctx : Type) (ctx : Ctx) (ss : List JSeg) (m : Nat)
    (hm : 0 < m) (hok : segsOK ss = true) :
    TruncateJsonString ctx (renderSegs ss) m =
      some (outFromG (closeAllStrings m (paddingFor m)) 0 ss)
    ∧ (∀ i c, m ≤ c.length →
        litOutG (closeAllStrings m (paddingFor m)) i c =
          stringToken ::
            (c.take (paddingFor m) ++ ascii (" **escaped ") ++ natToDec (c.length - m) ++
              ascii (" chars at [") ++ natToDec (i + 1) ++ ascii (":") ++
              natToDec (i + 1 + c.length) ++ ascii ("]** ") ++
              c.drop (c.length - paddingFor m)) ++ [stringToken])
    ∧ paddingFor m = (if 20 ≤ m then 20 else m / 2) := by
  refine ⟨?_, ?_, ?_⟩
  · have h := truncAll_segs ctx ss m hok
    rw [show effectiveMax (renderSegs ss) m = m from by
      unfold effectiveMax
      rw [if_neg (by omega)]] at h
    exact h
  · intro i c hmc
    unfold litOutG
    rw [if_neg (by omega : ¬c.length = 0)]
    unfold closeAllStrings
    rw [if_pos (by omega : c.length ≥ m)]
    rfl
  · unfold paddingFor
    by_cases h : m < 20
    · rw [if_pos h, if_neg (by omega)]
    · rw [if_neg h, if_pos (by omega)]

/-- C1 witness: a single six-byte literal at budget 4. -/
theorem claimC1_witness :
    (0 < 4 ∧ segsOK [JSeg.lit [97, 98, 99, 100, 101, 102]] = true) ∧
    TruncateJsonString () (renderSegs [JSeg.lit [97, 98, 99, 100, 101, 102]]) 4 =
      some (outFromG (closeAllStrings 4 (paddingFor 4)) 0
        [JSeg.lit [97, 98, 99, 100, 101, 102]]) :=
  ⟨⟨by decide, by decide⟩,
    (claimC1 Unit () [JSeg.lit [97, 98, 99, 100, 101, 102]] 4 (by decide) (by decide)).1⟩

/-- C2 counterexample: for the input `a:""` at `maxChars = 1`, the
single literal (empty content, closing quote at index 3) is classified
by the code as a KEY (recorded `isKey = true`), although scanning from
the byte after its closing quote (index 4) reaches end-of-input without
a colon, which the claim says classifies it as a value.  The code's
classifier starts at `idxEnd + 1 = 1`, not after the closing quote,
because `idxEnd` is still `0` for an empty literal.  (The output is
nevertheless unchanged, since an empty literal is never over budget.) -/
theorem claimC2_counterexample :
    (scanTrace true [97, 58, 34, 34] 1).2 = [⟨3, 3, 0, [], true⟩] ∧
    isKeyLoop (List.drop (3 + 1) [97, 58, 34, 34]) false = false ∧
    TruncateJsonValueString () [97, 58, 34, 34] 1 = some [97, 58, 34, 34] :=
  ⟨by decide, by decide, by decide⟩

/-- C2 amended: in `TruncateJsonValueString`, a completed literal is
classified as a key exactly when, scanning forward from position
`idxEnd + 1` — which is the byte after the closing quote whenever the
content is nonempty, but position `1` when the content is empty (then
`idxEnd` is `0`) — a colon is encountered before any quote; a literal
classified as a key is written back unmodified between its quotes while
a value is truncated when over budget; in particular for
`{"k": "abcdef"}` at `maxChars = 4` the key `k` is emitted unchanged and
only the value is rewritten. -/
theorem claimC2_amended :
    (∀ (data : List Nat) (maxChars : Nat) (e : LitEntry),
        e ∈ (scanTrace true data maxChars).2 →
        e.isKey = isKeyLoop (data.drop (e.idxEnd + 1)) false ∧
        (e.content ≠ [] → e.idxEnd = e.closeIdx) ∧
        (e.content = [] → e.idxEnd = 0)) ∧
    (∀ (Ctx : Type) (ctx : Ctx) (ss : List JSeg) (m : Nat), segsOK ss = true →
        TruncateJsonValueString ctx (renderSegs ss) m =
          some (outFromG (closeValueOnly (renderSegs ss) (effectiveMax (renderSegs ss) m)
            (paddingFor m)) 0 ss)) ∧
    TruncateJsonValueString ()
        [123, 34, 107, 34, 58, 32, 34, 97, 98, 99, 100, 101, 102, 34, 125] 4 =
      some ([123, 34, 107, 34, 58, 32, 34, 97, 98] ++ ascii (" **escaped ") ++ [50] ++
        ascii (" chars at [") ++ [55] ++ [58] ++ [49, 51] ++ ascii ("]** ") ++
        [101, 102, 34, 125]) := by
  refine ⟨?_, ?_, by decide⟩
  · intro data maxChars e he
    have hg := scanTrace_good true data maxChars e he
    exact ⟨by simpa using hg.2.2.2, hg.2.2.1, hg.2.1⟩
  · intro Ctx ctx ss m hok
    exact truncVal_segs ctx ss m hok

/-- C2 witness: the key literal of `{"k": "abcdef"}` (content `k`,
closing quote at index 3): its recorded classification equals the
colon-before-quote scan from index 4. -/
theorem claimC2_amended_witness :
    (⟨3, 2, 3, [107], true⟩ : LitEntry).isKey =
      isKeyLoop (List.drop (3 + 1)
        [123, 34, 107, 34, 58, 32, 34, 97, 98, 99, 100, 101, 102, 34, 125]) false :=
  (claimC2_amended.1 [123, 34, 107, 34, 58, 32, 34, 97, 98, 99, 100, 101, 102, 34, 125] 4
    ⟨3, 2, 3, [107], true⟩ (by decide)).1

/-- C3 counterexample: the one-byte input consisting of a single opening
quote leaves the scanner inside an opened, never-closed literal at
end-of-input, yet both operations succeed (returning the empty output)
instead of failing as the claim states. -/
theorem claimC3_counterexample :
    TruncateJsonString () [stringToken] 5 = some [] ∧
    TruncateJsonValueString () [stringToken] 5 = some [] :=
  ⟨by decide, by decide⟩

/-- C3 amended: if the scanner reaches end-of-input inside an opened
string literal AND at least one byte follows the opening quote (when
the opening quote is the final input byte, the scan instead returns
success), both operations fail with the unclosed-string error; in
particular the three-byte input quote, backslash, quote errors for both
operations at every budget. -/
theorem claimC3_amended (Ctx : Type) (ctx : Ctx) (ss : List JSeg) (c : List Nat) (m : Nat)
    (hok : segsOK ss = true) (hnc : noCloseFrom stringToken c = true) (hcne : c ≠ []) :
    TruncateJsonString ctx (renderSegs ss ++ stringToken :: c) m = none ∧
    TruncateJsonValueString ctx (renderSegs ss ++ stringToken :: c) m = none ∧
    TruncateJsonString ctx [stringToken, escapedStringToken, stringToken] m = none ∧
    TruncateJsonValueString ctx [stringToken, escapedStringToken, stringToken] m = none := by
  refine ⟨?_, ?_, ?_, ?_⟩
  · unfold TruncateJsonString
    exact scanLoop_unclosed _ _ ss c rfl hok hnc hcne
  · unfold TruncateJsonValueString
    exact scanLoop_unclosed _ _ ss c rfl hok hnc hcne
  · unfold TruncateJsonString
    exact scanLoop_unclosed _ _ [] [escapedStringToken, stringToken] rfl (by decide)
      (by decide) (by decide)
  · unfold TruncateJsonValueString
    exact scanLoop_unclosed _ _ [] [escapedStringToken, stringToken] rfl (by decide)
      (by decide) (by decide)

/-- C3 witness: empty prefix, unclosed literal body backslash-quote,
budget 7. -/
theorem claimC3_amended_witness :
    (segsOK ([] : List JSeg) = true ∧
      noCloseFrom stringToken [escapedStringToken, stringToken] = true ∧
      [escapedStringToken, stringToken] ≠ ([] : List Nat)) ∧
    TruncateJsonString () (renderSegs [] ++ stringToken :: [escapedStringToken, stringToken]) 7 =
      none :=
  ⟨⟨by decide, by decide, by decide⟩,
    (claimC3_amended Unit () [] [escapedStringToken, stringToken] 7 (by decide) (by decide)
      (by decide)).1⟩

/-- C4 counterexample: a literal whose content length EQUALS `maxChars`
is rewritten, not returned unchanged: on the input `"a"` (one-byte
content) at `maxChars = 1`, both operations change the literal, because
the code truncates when the content length is greater than OR EQUAL to
the budget, while the claim allows contents "at most" the budget to pass
unchanged. -/
theorem claimC4_counterexample :
    ¬(TruncateJsonString () [34, 97, 34] 1 = some [34, 97, 34]) ∧
    ¬(TruncateJsonValueString () [34, 97, 34] 1 = some [34, 97, 34]) :=
  ⟨by decide, by decide⟩

/-- C4 amended: for every well-formed input and every `maxChars > 0`,
if every string literal's content is STRICTLY SHORTER than `maxChars`,
then both operations return the input unchanged byte-for-byte. -/
theorem claimC4_amended (Ctx : Type) (ctx : Ctx) (ss : List JSeg) (m : Nat) (hm : 0 < m)
    (hok : segsOK ss = true) (hunder : ∀ c, JSeg.lit c ∈ ss → c.length < m) :
    TruncateJsonString ctx (renderSegs ss) m = some (renderSegs ss) ∧
    TruncateJsonValueString ctx (renderSegs ss) m = some (renderSegs ss) := by
  have hM : effectiveMax (renderSegs ss) m = m := by
    unfold effectiveMax
    rw [if_neg (by omega)]
  constructor
  · rw [truncAll_segs ctx ss m hok, hM, outFromG_all_id m (paddingFor m) ss 0 hunder]
  · rw [truncVal_segs ctx ss m hok, hM,
      outFromG_val_id (renderSegs ss) m (paddingFor m) ss 0 hunder]

/-- C4 witness: the literal `"a"` at budget 2 round-trips. -/
theorem claimC4_amended_witness :
    (0 < 2 ∧ segsOK [JSeg.lit [97]] = true) ∧
    TruncateJsonString () (renderSegs [JSeg.lit [97]]) 2 = some (renderSegs [JSeg.lit [97]]) :=
  ⟨⟨by decide, by decide⟩,
    (claimC4_amended Unit () [JSeg.lit [97]] 2 (by decide) (by decide)
      (by
        intro c hc
        simp only [List.mem_cons, List.not_mem_nil, or_false, JSeg.lit.injEq] at hc
        subst hc
        decide)).1⟩

/-- C5: for every input with properly paired and escaped string quotes,
both operations at `maxChars = 0` succeed and return the input unchanged
byte-for-byte: the zero budget becomes `len(data)`, which no literal
content (strictly shorter than the whole input) can reach. -/
theorem claimC5 (Ctx : Type) (ctx : Ctx) (ss : List JSeg) (hok : segsOK ss = true) :
    TruncateJsonString ctx (renderSegs ss) 0 = some (renderSegs ss) ∧
    TruncateJsonValueString ctx (renderSegs ss) 0 = some (renderSegs ss) := by
  have hM : effectiveMax (renderSegs ss) 0 = (renderSegs ss).length := by
    unfold effectiveMax
    rw [if_pos rfl]
  have hunder : ∀ c, JSeg.lit c ∈ ss → c.length < (renderSegs ss).length := by
    intro c hc
    have := lit_length_lt_render ss c hc
    omega
  constructor
  · rw [truncAll_segs ctx ss 0 hok, hM,
      outFromG_all_id (renderSegs ss).length (paddingFor 0) ss 0 hunder]
  · rw [truncVal_segs ctx ss 0 hok, hM,
      outFromG_val_id (renderSegs ss) (renderSegs ss).length (paddingFor 0) ss 0 hunder]

/-- C5 witness: the input `{"ab":1}`-like segment list round-trips at
budget 0 under both operations. -/
theorem claimC5_witness :
    segsOK [JSeg.plain 123, JSeg.lit [97, 98], JSeg.plain 58, JSeg.plain 49,
      JSeg.plain 125] = true ∧
    (TruncateJsonString () (renderSegs [JSeg.plain 123, JSeg.lit [97, 98], JSeg.plain 58,
        JSeg.plain 49, JSeg.plain 125]) 0 =
      some (renderSegs [JSeg.plain 123, JSeg.lit [97, 98], JSeg.plain 58, JSeg.plain 49,
        JSeg.plain 125]) ∧
      TruncateJsonValueString () (renderSegs [JSeg.plain 123, JSeg.lit [97, 98],
        JSeg.plain 58, JSeg.plain 49, JSeg.plain 125]) 0 =
      some (renderSegs [JSeg.plain 123, JSeg.lit [97, 98], JSeg.plain 58, JSeg.plain 49,
        JSeg.plain 125])) :=
  ⟨by decide,
    claimC5 Unit () [JSeg.plain 123, JSeg.lit [97, 98], JSeg.plain 58, JSeg.plain 49,
      JSeg.plain 125] (by decide)⟩

/-- C6: while inside a string, a quote byte at position `i` closes the
literal exactly when the input byte at `prevIdxOf i` (the preceding
byte) is not the backslash escape byte — otherwise it is treated as
content (or triggers the unclosed error at the last index); and the
four-byte input quote, backslash, quote, quote round-trips unchanged
through both operations at `maxChars = 0`. -/
theorem claimC6 :
    (∀ (data : List Nat) (close : List Nat → Nat → Nat → List Nat) (i : Nat)
        (rest : List Nat) (s : ScanState), s.begin = true → s.idxStart ≠ 0 →
        scanLoop data close i (stringToken :: rest) s =
          (if data.getD (prevIdxOf i) 0 ≠ escapedStringToken then
            scanLoop data close (i + 1) rest
              ⟨s.buf ++ stringToken :: close s.str s.idxStart s.idxEnd ++ [stringToken],
                [], false, 0, 0⟩
          else if i = data.length - 1 then none
          else scanLoop data close (i + 1) rest
            { s with str := s.str ++ [stringToken], idxEnd := i + 1 })) ∧
    TruncateJsonString () [34, 92, 34, 34] 0 = some [34, 92, 34, 34] ∧
    TruncateJsonValueString () [34, 92, 34, 34] 0 = some [34, 92, 34, 34] := by
  refine ⟨?_, by decide, by decide⟩
  intro data close i rest s hb hS
  by_cases hp : data.getD (prevIdxOf i) 0 ≠ escapedStringToken
  · rw [if_pos hp]
    exact scanLoop_close data close i rest s hS hb hp
  · rw [if_neg hp]
    by_cases hl : i = data.length - 1
    · rw [if_pos hl]
      exact scanLoop_err data close i stringToken rest s (fun hh => hS hh.2) hb
        (fun hh => hp hh.2) hl
    · rw [if_neg hl]
      exact scanLoop_append data close i stringToken rest s (fun hh => hS hh.2) hb
        (fun hh => hp hh.2) hl

/-- C6 witness: inside the literal of `"a"`, the final quote at index 2
(previous byte `a`) closes the literal. -/
theorem claimC6_witness :
    scanLoop [34, 97, 34] (closeAllStrings 3 1) 2 (stringToken :: []) ⟨[], [97], true, 1, 2⟩ =
      (if [34, 97, 34].getD (prevIdxOf 2) 0 ≠ escapedStringToken then
        scanLoop [34, 97, 34] (closeAllStrings 3 1) 3 []
          ⟨[] ++ stringToken :: closeAllStrings 3 1 [97] 1 2 ++ [stringToken], [], false, 0, 0⟩
      else if 2 = [34, 97, 34].length - 1 then none
      else scanLoop [34, 97, 34] (closeAllStrings 3 1) 3 []
        ⟨[], [97] ++ [stringToken], true, 1, 3⟩) :=
  claimC6.1 [34, 97, 34] (closeAllStrings 3 1) 2 [] ⟨[], [97], true, 1, 2⟩ rfl (by decide)

/-- C7: for every budget, the four-byte input of four quote bytes is
read as two empty literals back to back: both operations succeed and
return the four bytes unchanged. -/
theorem claimC7 (Ctx : Type) (ctx : Ctx) (m : Nat) :
    TruncateJsonString ctx [34, 34, 34, 34] m = some [34, 34, 34, 34] ∧
    TruncateJsonValueString ctx [34, 34, 34, 34] m = some [34, 34, 34, 34] := by
  have hss : ([34, 34, 34, 34] : List Nat) = renderSegs [JSeg.lit [], JSeg.lit []] := rfl
  have hok : segsOK [JSeg.lit [], JSeg.lit []] = true := by decide
  have hunder : ∀ c, JSeg.lit c ∈ [JSeg.lit [], JSeg.lit []] →
      c.length < effectiveMax (renderSegs [JSeg.lit [], JSeg.lit []]) m := by
    intro c hc
    have hc0 : c = [] := by
      simp only [List.mem_cons, List.not_mem_nil, or_false, JSeg.lit.injEq] at hc
      rcases hc with h | h <;> exact h
    subst hc0
    show 0 < effectiveMax _ m
    unfold effectiveMax
    by_cases h : m = 0
    · rw [if_pos h]
      decide
    · rw [if_neg h]
      omega
  rw [hss]
  constructor
  · rw [truncAll_segs ctx _ m hok,
      outFromG_all_id (effectiveMax (renderSegs [JSeg.lit [], JSeg.lit []]) m)
        (paddingFor m) _ 0 hunder]
  · rw [truncVal_segs ctx _ m hok,
      outFromG_val_id (renderSegs [JSeg.lit [], JSeg.lit []])
        (effectiveMax (renderSegs [JSeg.lit [], JSeg.lit []]) m)
        (paddingFor m) _ 0 hunder]

/-- C8: both operations are total.  Whenever a recorded literal triggers
the truncation branch (its content length reaches the effective budget),
`padding` is at most the content length, so the Go slices
`str[0:padding]` and `str[len(str)-padding:]` are in bounds; at
`maxChars = 0` the truncation branch is unreachable because every
literal's content is strictly shorter than the whole input (hence than
the effective budget `len(data)`); and the single-byte lookback index
`prevIdxOf i` never exceeds `i`, so `data[prevIdx]` is in bounds. -/
theorem claimC8 :
    (∀ (keyAware : Bool) (data : List Nat) (maxChars : Nat) (e : LitEntry),
        e ∈ (scanTrace keyAware data maxChars).2 →
        (effectiveMax data maxChars ≤ e.content.length →
          paddingFor maxChars ≤ e.content.length ∧
          e.content.length - paddingFor maxChars ≤ e.content.length) ∧
        (maxChars = 0 → e.content.length < effectiveMax data maxChars)) ∧
    (∀ i n : Nat, i < n → prevIdxOf i < n) := by
  constructor
  · intro ka data mc e he
    have hg := scanTrace_good ka data mc e he
    have hlen : e.content.length < data.length := hg.1
    constructor
    · intro htr
      refine ⟨?_, Nat.sub_le _ _⟩
      unfold paddingFor
      unfold effectiveMax at htr
      by_cases h0 : mc = 0
      · rw [if_pos (by omega : mc < 20)]
        have := Nat.div_le_self mc 2
        rw [if_pos h0] at htr
        omega
      · rw [if_neg h0] at htr
        by_cases h20 : mc < 20
        · rw [if_pos h20]
          have := Nat.div_le_self mc 2
          omega
        · rw [if_neg h20]
          omega
    · intro h0
      unfold effectiveMax
      rw [if_pos h0]
      exact hlen
  · intro i n h
    unfold prevIdxOf
    by_cases h0 : i = 0
    · rw [if_pos h0]
      exact h
    · rw [if_neg h0]
      omega

/-- C8 witness: the literal of `"a"` at budget 1 triggers truncation and
its padding `0` is within bounds; lookback at index 2 stays below the
length 3. -/
theorem claimC8_witness :
    (paddingFor 1 ≤ ([97] : List Nat).length ∧
      ([97] : List Nat).length - paddingFor 1 ≤ ([97] : List Nat).length) ∧
    prevIdxOf 2 < 3 :=
  ⟨((claimC8.1 false [34, 97, 34] 1 ⟨2, 1, 2, [97], false⟩ (by decide)).1 (by decide)),
    claimC8.2 2 3 (by decide)⟩

/-- C9: when the final input byte is a quote that opens a new literal —
a trailing quote after a well-formed prefix, or the one-byte input of a
single quote — both operations return successfully (a `some` result, the
Go `nil` error) and the output omits that trailing opening quote,
because the end-of-input check runs only on bytes processed while
already inside a string. -/
theorem claimC9 (Ctx : Type) (ctx : Ctx) (ss : List JSeg) (m : Nat)
    (hok : segsOK ss = true) :
    TruncateJsonString ctx (renderSegs ss ++ [stringToken]) m =
      some (outFromG (closeAllStrings (effectiveMax (renderSegs ss ++ [stringToken]) m)
        (paddingFor m)) 0 ss) ∧
    TruncateJsonValueString ctx (renderSegs ss ++ [stringToken]) m =
      some (outFromG (closeValueOnly (renderSegs ss ++ [stringToken])
        (effectiveMax (renderSegs ss ++ [stringToken]) m) (paddingFor m)) 0 ss) ∧
    TruncateJsonString ctx [stringToken] m = some [] ∧
    TruncateJsonValueString ctx [stringToken] m = some [] := by
  refine ⟨?_, ?_, ?_, ?_⟩
  · unfold TruncateJsonString
    exact scanLoop_trailing _ _ ss rfl hok
  · unfold TruncateJsonValueString
    exact scanLoop_trailing _ _ ss rfl hok
  · unfold TruncateJsonString
    exact scanLoop_trailing [stringToken] _ [] rfl (by decide)
  · unfold TruncateJsonValueString
    exact scanLoop_trailing [stringToken] _ [] rfl (by decide)

/-- C9 witness: the input `a"` succeeds and returns `a`, dropping the
trailing opening quote. -/
theorem claimC9_witness :
    segsOK [JSeg.plain 97] = true ∧
    TruncateJsonString () (renderSegs [JSeg.plain 97] ++ [stringToken]) 0 =
      some (outFromG (closeAllStrings
        (effectiveMax (renderSegs [JSeg.plain 97] ++ [stringToken]) 0) (paddingFor 0)) 0
        [JSeg.plain 97]) :=
  ⟨by decide, (claimC9 Unit () [JSeg.plain 97] 0 (by decide)).1⟩

/-- C10: the context argument is never consulted: for any two context
values (of any type), both operations return identical results —
identical output bytes and identical error behaviour — on the same
input and budget. -/
theorem claimC10 (Ctx : Type) (ctx1 ctx2 : Ctx) (data : List Nat) (maxChars : Nat) :
    TruncateJsonString ctx1 data maxChars = TruncateJsonString ctx2 data maxChars ∧
    TruncateJsonValueString ctx1 data maxChars = TruncateJsonValueString ctx2 data maxChars :=
  ⟨rfl, rfl⟩
